import Mathlib

/-!
Verification of the pricing engine, cart store and RUT validator of the
`frontend-challenge` storefront.  Numbers (prices, quantities) are modelled
as rationals (`ℚ`); JavaScript arrays become `List`, `null`/`undefined`
become `Option`.
-/

set_option linter.all false

namespace Storefront

/-- A volume price break (`PriceBreak` in `src/types/Product`): a quantity
threshold `minQty` and the discounted unit `price`.  The display-only
`discount` field is never read by the engine and is omitted. -/
structure PriceBreak where
  minQty : ℚ
  price : ℚ
  deriving DecidableEq, Repr

/-- The part of `Product` read by the pricing engine: `basePrice` and the
optional `priceBreaks` list (the `?? []` in `sortBreaks` makes a missing
list behave as the empty list, so we model it as a plain `List`). -/
structure Product where
  basePrice : ℚ
  priceBreaks : List PriceBreak
  deriving Repr

/-- `sortBreaks` (src/data/pricing.ts): copy of the breaks sorted ascending
by `minQty`.  JavaScript `Array.prototype.sort` is stable; we use the stable
`List.insertionSort`. -/
def sortBreaks (product : Product) : List PriceBreak :=
  product.priceBreaks.insertionSort (fun a b => a.minQty ≤ b.minQty)

/-- The accumulator step of the `reduce` in `getBestBreakForQty`:
keep the lower-priced break, ties broken towards the larger `minQty`. -/
def bestStep (best : Option PriceBreak) (curr : PriceBreak) : Option PriceBreak :=
  match best with
  | none => some curr
  | some b =>
    if curr.price < b.price then some curr
    else if curr.price = b.price ∧ b.minQty < curr.minQty then some curr
    else some b

/-- `getBestBreakForQty` (src/data/pricing.ts): among the breaks with
`minQty ≤ qty`, the one with the lowest price, ties towards larger
`minQty`; `none` when no break is eligible. -/
def getBestBreakForQty (product : Product) (qty : ℚ) : Option PriceBreak :=
  let sorted := sortBreaks product
  if sorted.isEmpty then none
  else
    let eligible := sorted.filter (fun b => decide (b.minQty ≤ qty))
    if eligible.isEmpty then none
    else eligible.foldl bestStep none

/-- `getUnitPriceForQty` (src/data/pricing.ts): `min(best.price, basePrice)`
when a break applies, else `basePrice`. -/
def getUnitPriceForQty (product : Product) (qty : ℚ) : ℚ :=
  match getBestBreakForQty product qty with
  | some best => min best.price product.basePrice
  | none => product.basePrice

/-- `getDiscountPercent` (src/data/pricing.ts): `0` when
`basePrice * qty ≤ 0`, else `(base - discounted) / base * 100`. -/
def getDiscountPercent (product : Product) (qty : ℚ) : ℚ :=
  let base := product.basePrice * qty
  if base ≤ 0 then 0
  else
    let unit := getUnitPriceForQty product qty
    let discounted := unit * qty
    ((base - discounted) / base) * 100

/-- Result record of `computePricing`. -/
structure PricingResult where
  unitPrice : ℚ
  netSubtotal : ℚ
  discountPercent : ℚ
  deriving Repr

/-- `computePricing` (src/data/pricing.ts): one-shot composition of the
three functions above. -/
def computePricing (product : Product) (qty : ℚ) : PricingResult :=
  let unitPrice := getUnitPriceForQty product qty
  let netSubtotal := unitPrice * qty
  let discountPercent := getDiscountPercent product qty
  { unitPrice := unitPrice, netSubtotal := netSubtotal, discountPercent := discountPercent }

/-- The spec's worked example product: basePrice 1000,
breaks [{minQty 10, price 900}, {minQty 50, price 800}]. -/
def exampleProduct : Product :=
  { basePrice := 1000, priceBreaks := [⟨10, 900⟩, ⟨50, 800⟩] }

/-- The fold over the eligible list, seeded with `some b`, yields an element
of `b :: l` whose price is minimal and, among minimal prices, whose `minQty`
is maximal. -/
lemma foldl_bestStep_some (l : List PriceBreak) : ∀ b : PriceBreak,
    ∃ r, l.foldl bestStep (some b) = some r ∧ (r = b ∨ r ∈ l) ∧
      r.price ≤ b.price ∧ (∀ c ∈ l, r.price ≤ c.price) ∧
      (b.price = r.price → b.minQty ≤ r.minQty) ∧
      (∀ c ∈ l, c.price = r.price → c.minQty ≤ r.minQty) := by
  induction l with
  | nil =>
    intro b
    exact ⟨b, rfl, Or.inl rfl, le_refl _, by simp, fun _ => le_refl _, by simp⟩
  | cons c l ih =>
    intro b
    have hstep : List.foldl bestStep (some b) (c :: l)
        = List.foldl bestStep (bestStep (some b) c) l := rfl
    by_cases h1 : c.price < b.price
    · have hbs : bestStep (some b) c = some c := by simp [bestStep, h1]
      obtain ⟨r, hr, hmem, hple, hall, hminq, hallm⟩ := ih c
      refine ⟨r, by rw [hstep, hbs]; exact hr, ?_, ?_, ?_, ?_, ?_⟩
      · rcases hmem with h | h
        · exact Or.inr (h ▸ List.mem_cons_self c l)
        · exact Or.inr (List.mem_cons_of_mem c h)
      · exact le_of_lt (lt_of_le_of_lt hple h1)
      · intro d hd
        rcases List.mem_cons.mp hd with h | h
        · exact h ▸ hple
        · exact hall d h
      · intro heq
        exact absurd heq.symm (ne_of_lt (lt_of_le_of_lt hple h1))
      · intro d hd hdq
        rcases List.mem_cons.mp hd with h | h
        · exact h ▸ hminq (h ▸ hdq)
        · exact hallm d h hdq
    · by_cases h2 : c.price = b.price ∧ b.minQty < c.minQty
      · have hbs : bestStep (some b) c = some c := by simp [bestStep, h1, h2]
        obtain ⟨r, hr, hmem, hple, hall, hminq, hallm⟩ := ih c
        refine ⟨r, by rw [hstep, hbs]; exact hr, ?_, ?_, ?_, ?_, ?_⟩
        · rcases hmem with h | h
          · exact Or.inr (h ▸ List.mem_cons_self c l)
          · exact Or.inr (List.mem_cons_of_mem c h)
        · exact h2.1 ▸ hple
        · intro d hd
          rcases List.mem_cons.mp hd with h | h
          · exact h ▸ hple
          · exact hall d h
        · intro heq
          have hcr : c.price = r.price := h2.1.symm ▸ heq
          exact le_of_lt (lt_of_lt_of_le h2.2 (hminq hcr))
        · intro d hd hdq
          rcases List.mem_cons.mp hd with h | h
          · exact h ▸ hminq (h ▸ hdq)
          · exact hallm d h hdq
      · have hbs : bestStep (some b) c = some b := by
          simp only [bestStep]
          rw [if_neg h1, if_neg]
          intro hcontra
          exact h2 ⟨hcontra.1, hcontra.2⟩
        obtain ⟨r, hr, hmem, hple, hall, hminq, hallm⟩ := ih b
        have hbc : b.price ≤ c.price := le_of_not_lt h1
        refine ⟨r, by rw [hstep, hbs]; exact hr, ?_, hple, ?_, hminq, ?_⟩
        · rcases hmem with h | h
          · exact Or.inl h
          · exact Or.inr (List.mem_cons_of_mem c h)
        · intro d hd
          rcases List.mem_cons.mp hd with h | h
          · exact h ▸ le_trans hple hbc
          · exact hall d h
        · intro d hd hdq
          rcases List.mem_cons.mp hd with h | h
          · subst h
            have hdb : d.price = b.price := le_antisymm (hdq ▸ hple) hbc
            have hnlt : ¬ b.minQty < d.minQty := fun hl => h2 ⟨hdb, hl⟩
            exact le_trans (le_of_not_lt hnlt) (hminq (hdb ▸ hdq))
          · exact hallm d h hdq

/-- The eligible list of `getBestBreakForQty`. -/
def eligibleBreaks (P : Product) (q : ℚ) : List PriceBreak :=
  (sortBreaks P).filter (fun b => decide (b.minQty ≤ q))

/-- `getBestBreakForQty` is the fold of `bestStep` over the filtered sorted
breaks (the two early `null` returns coincide with the fold on `[]`). -/
lemma getBest_eq_foldl (P : Product) (q : ℚ) :
    getBestBreakForQty P q = (eligibleBreaks P q).foldl bestStep none := by
  show (if (sortBreaks P).isEmpty then none
      else if ((sortBreaks P).filter (fun b => decide (b.minQty ≤ q))).isEmpty then none
      else ((sortBreaks P).filter (fun b => decide (b.minQty ≤ q))).foldl bestStep none)
    = (eligibleBreaks P q).foldl bestStep none
  unfold eligibleBreaks
  cases hs : sortBreaks P with
  | nil => simp
  | cons a l =>
    simp only [List.isEmpty_cons, Bool.false_eq_true, if_false]
    cases hf : List.filter (fun b => decide (b.minQty ≤ q)) (a :: l) with
    | nil => simp
    | cons e rest => simp

lemma mem_eligibleBreaks (P : Product) (q : ℚ) (b : PriceBreak) :
    b ∈ eligibleBreaks P q ↔ b ∈ P.priceBreaks ∧ b.minQty ≤ q := by
  unfold eligibleBreaks sortBreaks
  rw [List.mem_filter, decide_eq_true_eq,
    (List.perm_insertionSort (fun a b => a.minQty ≤ b.minQty) P.priceBreaks).mem_iff]

/-- `getBestBreakForQty` returns `none` exactly when no break is eligible. -/
lemma getBest_none_iff (P : Product) (q : ℚ) :
    getBestBreakForQty P q = none ↔ ∀ b ∈ P.priceBreaks, ¬ b.minQty ≤ q := by
  rw [getBest_eq_foldl]
  show (eligibleBreaks P q).foldl bestStep none = none ↔ _
  constructor
  · intro h b hb hq
    cases helig : eligibleBreaks P q with
    | nil =>
      have : b ∈ eligibleBreaks P q := (mem_eligibleBreaks P q b).mpr ⟨hb, hq⟩
      rw [helig] at this
      exact absurd this (List.not_mem_nil b)
    | cons e rest =>
      obtain ⟨r, hr, -⟩ := foldl_bestStep_some rest e
      rw [helig] at h
      have : List.foldl bestStep none (e :: rest) = List.foldl bestStep (some e) rest := rfl
      rw [this, hr] at h
      exact Option.noConfusion h
  · intro h
    have helig : eligibleBreaks P q = [] := by
      cases helig : eligibleBreaks P q with
      | nil => rfl
      | cons e rest =>
        have he : e ∈ eligibleBreaks P q := helig ▸ List.mem_cons_self e rest
        obtain ⟨hmem, hq⟩ := (mem_eligibleBreaks P q e).mp he
        exact absurd hq (h e hmem)
    rw [helig]
    rfl

/-- Full characterisation of a `some` result of `getBestBreakForQty`. -/
lemma getBest_some_spec (P : Product) (q : ℚ) (r : PriceBreak)
    (h : getBestBreakForQty P q = some r) :
    r ∈ P.priceBreaks ∧ r.minQty ≤ q ∧
      (∀ b ∈ P.priceBreaks, b.minQty ≤ q → r.price ≤ b.price) ∧
      (∀ b ∈ P.priceBreaks, b.minQty ≤ q → b.price = r.price → b.minQty ≤ r.minQty) := by
  rw [getBest_eq_foldl] at h
  change (eligibleBreaks P q).foldl bestStep none = some r at h
  cases helig : eligibleBreaks P q with
  | nil =>
    rw [helig] at h
    exact Option.noConfusion h
  | cons e rest =>
    rw [helig] at h
    have hstep : List.foldl bestStep none (e :: rest) = List.foldl bestStep (some e) rest := rfl
    rw [hstep] at h
    obtain ⟨u, hu, hmem, hple, hall, hminq, hallm⟩ := foldl_bestStep_some rest e
    rw [hu] at h
    have hur : u = r := Option.some.inj h
    rw [hur] at hmem hple hall hminq hallm
    have hrelig : r ∈ eligibleBreaks P q := by
      rw [helig]
      rcases hmem with hrfl | hmem
      · exact hrfl ▸ List.mem_cons_self e rest
      · exact List.mem_cons_of_mem e hmem
    obtain ⟨hrmem, hrq⟩ := (mem_eligibleBreaks P q r).mp hrelig
    refine ⟨hrmem, hrq, ?_, ?_⟩
    · intro b hb hbq
      have hbe : b ∈ eligibleBreaks P q := (mem_eligibleBreaks P q b).mpr ⟨hb, hbq⟩
      rw [helig] at hbe
      rcases List.mem_cons.mp hbe with hbeq | hbrest
      · exact hbeq ▸ hple
      · exact hall b hbrest
    · intro b hb hbq hbp
      have hbe : b ∈ eligibleBreaks P q := (mem_eligibleBreaks P q b).mpr ⟨hb, hbq⟩
      rw [helig] at hbe
      rcases List.mem_cons.mp hbe with hbeq | hbrest
      · rw [hbeq] at hbp ⊢
        exact hminq hbp
      · exact hallm b hbrest hbp

/-- If some break is eligible, `getBestBreakForQty` returns `some`. -/
lemma getBest_isSome (P : Product) (q : ℚ) (b : PriceBreak)
    (hb : b ∈ P.priceBreaks) (hq : b.minQty ≤ q) :
    ∃ r, getBestBreakForQty P q = some r := by
  cases h : getBestBreakForQty P q with
  | none => exact absurd hq ((getBest_none_iff P q).mp h b hb)
  | some r => exact ⟨r, rfl⟩

/-- The unit price never exceeds the base price. -/
lemma getUnitPrice_le_base (P : Product) (q : ℚ) :
    getUnitPriceForQty P q ≤ P.basePrice := by
  unfold getUnitPriceForQty
  cases getBestBreakForQty P q with
  | none => exact le_refl _
  | some best => exact min_le_right _ _

/-- A product whose price breaks carry negative prices; one break is priced
above the (negative) base price. -/
def negBreakProduct : Product := { basePrice := -10, priceBreaks := [⟨-2, -20⟩, ⟨-2, -5⟩] }

lemma negBreakProduct_discount : getDiscountPercent negBreakProduct (-1) = -100 := by
  norm_num [getDiscountPercent, getUnitPriceForQty, getBestBreakForQty, negBreakProduct,
    sortBreaks, List.insertionSort, List.orderedInsert, bestStep]

/-- C1: `getBestBreakForQty` returns `none` exactly when no price break of
the product has `minQty ≤ qty`; otherwise it returns an eligible break of
minimal price and, among the eligible breaks sharing that minimal price,
one of maximal `minQty`. -/
theorem getBestBreakForQty_correct (P : Product) (q : ℚ) :
    (getBestBreakForQty P q = none ↔ ∀ b ∈ P.priceBreaks, ¬ b.minQty ≤ q) ∧
    ∀ r, getBestBreakForQty P q = some r →
      r ∈ P.priceBreaks ∧ r.minQty ≤ q ∧
      (∀ b ∈ P.priceBreaks, b.minQty ≤ q → r.price ≤ b.price) ∧
      (∀ b ∈ P.priceBreaks, b.minQty ≤ q → b.price = r.price → b.minQty ≤ r.minQty) :=
  ⟨getBest_none_iff P q, fun r h => getBest_some_spec P q r h⟩

/-- C2: `getUnitPriceForQty` is `min(best.price, basePrice)` when an
eligible break exists and `basePrice` otherwise; in both cases it never
exceeds `basePrice`. -/
theorem getUnitPriceForQty_correct (P : Product) (q : ℚ) :
    (∀ r, getBestBreakForQty P q = some r →
        getUnitPriceForQty P q = min r.price P.basePrice) ∧
    (getBestBreakForQty P q = none → getUnitPriceForQty P q = P.basePrice) ∧
    getUnitPriceForQty P q ≤ P.basePrice := by
  refine ⟨?_, ?_, getUnitPrice_le_base P q⟩
  · intro r h
    unfold getUnitPriceForQty
    rw [h]
  · intro h
    unfold getUnitPriceForQty
    rw [h]

/-- C3: the discount formula is not clamped below zero: there are a product
(with a break priced above its base price) and a quantity with positive
`basePrice * qty` on which `getDiscountPercent` is negative. -/
theorem getDiscountPercent_can_be_negative :
    ∃ (P : Product) (q : ℚ),
      (∃ b ∈ P.priceBreaks, P.basePrice < b.price) ∧
      0 < P.basePrice * q ∧ getDiscountPercent P q < 0 := by
  refine ⟨negBreakProduct, -1, ⟨⟨-2, -5⟩, ?_, ?_⟩, ?_, ?_⟩
  · simp [negBreakProduct]
  · norm_num [negBreakProduct]
  · norm_num [negBreakProduct]
  · rw [negBreakProduct_discount]
    norm_num

/-- C4: with strictly ascending (hence non-overlapping) tiers, the
effective unit price is monotonically non-increasing in the quantity. -/
theorem getUnitPriceForQty_monotone (P : Product) (q1 q2 : ℚ)
    (hsorted : P.priceBreaks.Pairwise (fun a b => a.minQty < b.minQty))
    (h12 : q1 ≤ q2) :
    getUnitPriceForQty P q2 ≤ getUnitPriceForQty P q1 := by
  cases hb1 : getBestBreakForQty P q1 with
  | none =>
    have h1 : getUnitPriceForQty P q1 = P.basePrice := by
      unfold getUnitPriceForQty
      rw [hb1]
    rw [h1]
    exact getUnitPrice_le_base P q2
  | some r1 =>
    obtain ⟨hr1mem, hr1q, -, -⟩ := getBest_some_spec P q1 r1 hb1
    obtain ⟨r2, hb2⟩ := getBest_isSome P q2 r1 hr1mem (le_trans hr1q h12)
    obtain ⟨-, -, hr2min, -⟩ := getBest_some_spec P q2 r2 hb2
    have hprice : r2.price ≤ r1.price := hr2min r1 hr1mem (le_trans hr1q h12)
    unfold getUnitPriceForQty
    rw [hb1, hb2]
    exact min_le_min hprice (le_refl _)

/-- Witness for C4 at the spec's worked example, quantities 10 ≤ 60. -/
theorem getUnitPriceForQty_monotone_witness :
    exampleProduct.priceBreaks.Pairwise (fun a b => a.minQty < b.minQty) ∧
      (10 : ℚ) ≤ 60 ∧
      getUnitPriceForQty exampleProduct 60 ≤ getUnitPriceForQty exampleProduct 10 :=
  ⟨by norm_num [exampleProduct], by norm_num,
    getUnitPriceForQty_monotone exampleProduct 10 60 (by norm_num [exampleProduct])
      (by norm_num)⟩

/-- C5: `computePricing` is the plain composition of the three pricing
functions: its fields are exactly `getUnitPriceForQty`, that value times
the quantity, and `getDiscountPercent`. -/
theorem computePricing_composes (P : Product) (q : ℚ) :
    (computePricing P q).netSubtotal = getUnitPriceForQty P q * q ∧
    (computePricing P q).unitPrice = getUnitPriceForQty P q ∧
    (computePricing P q).discountPercent = getDiscountPercent P q :=
  ⟨rfl, rfl, rfl⟩

/-- C6: `getDiscountPercent` returns 0 whenever `basePrice * qty ≤ 0`; the
division only happens under the guard `basePrice * qty > 0`. -/
theorem getDiscountPercent_guard (P : Product) (q : ℚ) (h : P.basePrice * q ≤ 0) :
    getDiscountPercent P q = 0 := by
  simp only [getDiscountPercent]
  rw [if_pos h]

/-- Witness for C6 at base price 0. -/
theorem getDiscountPercent_guard_witness :
    (Product.mk 0 []).basePrice * 5 ≤ 0 ∧ getDiscountPercent (Product.mk 0 []) 5 = 0 :=
  ⟨by norm_num, getDiscountPercent_guard (Product.mk 0 []) 5 (by norm_num)⟩

/-! ### Cart store (src/data/cart.ts) -/

/-- `ProductId = string | number`. -/
inductive ProductId where
  | str (s : String)
  | num (n : Int)
  deriving DecidableEq, Repr

/-- The JavaScript `String(id)` coercion used by `sameKey`, `setQty` and
`removeFromCart` to compare ids. -/
def ProductId.toStr : ProductId → String
  | .str s => s
  | .num n => toString n

/-- `CartItem`: one cart line. -/
structure CartItem where
  id : ProductId
  qty : ℚ
  name : String
  price : ℚ
  image : Option String
  sku : String
  color : Option String
  size : Option String
  deriving DecidableEq, Repr

/-- `Cart`: the item list and the two derived totals. -/
structure Cart where
  items : List CartItem
  totalQty : ℚ
  totalPrice : ℚ
  deriving DecidableEq, Repr

/-- `CartState` (the optional `error` field is never set by the store and is
omitted). -/
structure CartState where
  cart : Cart
  loading : Bool
  deriving DecidableEq, Repr

/-- `recalc` (src/data/cart.ts): rebuild the derived totals from the items
(`reduce` over the list, starting at 0). -/
def recalc (items : List CartItem) : Cart :=
  { items := items
    totalQty := items.foldl (fun sum it => sum + it.qty) 0
    totalPrice := items.foldl (fun sum it => sum + it.price * it.qty) 0 }

/-- Outcome of reading the storage key and `JSON.parse`-ing it, as branched
on by `safeGet`.  The browser storage and the JSON parser are runtime
builtins; only their four distinguishable outcomes matter to `safeGet`. -/
inductive StoredContent where
  | missing                -- no `window`, or `localStorage.getItem` returns null/""
  | invalidJson            -- `JSON.parse` throws
  | noCartField            -- parsed value is null or has no `cart` field
  | withCart (c : Cart)    -- parsed record carrying a `cart` field
  deriving DecidableEq, Repr

/-- `safeGet` (src/data/cart.ts): fall back to an empty recalculated cart on
every outcome except a parsed record with a `cart` field, which is returned
as stored (without recalculation). -/
def safeGet : StoredContent → CartState
  | .missing => { cart := recalc [], loading := false }
  | .invalidJson => { cart := recalc [], loading := false }
  | .noCartField => { cart := recalc [], loading := false }
  | .withCart c => { cart := c, loading := false }

/-- `getCart` (src/data/cart.ts): just `safeGet()`. -/
def getCart (s : StoredContent) : CartState := safeGet s

/-- `sameKey` (src/data/cart.ts): equality of string-coerced id, sku, color
and size (JavaScript `===` on two `undefined` optionals is true, matching
`Option` equality). -/
def sameKey (a b : CartItem) : Bool :=
  a.id.toStr == b.id.toStr && a.sku == b.sku && a.color == b.color && a.size == b.size

/-- The `findIndex`/update/push body of `addToCart`: bump the qty of the
first line with the same key, or append the item (qty defaulted to 1 when
falsy, i.e. 0). -/
def addItem : List CartItem → CartItem → List CartItem
  | [], item => [{ item with qty := if item.qty = 0 then 1 else item.qty }]
  | it :: rest, item =>
    if sameKey it item then { it with qty := it.qty + item.qty } :: rest
    else it :: addItem rest item

/-- `addToCart` (src/data/cart.ts).  The `safeGet()` read is passed in as
`state`; the `safeSet` write and the `cart:updated` event carry exactly the
returned state. -/
def addToCart (state : CartState) (item : CartItem) : CartState :=
  { cart := recalc (addItem state.cart.items item), loading := false }

/-- The optional `Partial<CartItem>` selector of `setQty`/`removeFromCart`
(only `sku`, `color` and `size` are ever consulted). -/
structure ItemOptions where
  sku : Option String
  color : Option String
  size : Option String
  deriving DecidableEq, Repr

/-- The match condition of `setQty`/`removeFromCart`: string-coerced id
equality and, when options are present, sku/color/size equality
(a required `sku` compared against an optional one is `===`-equal only when
the option carries that string). -/
def matchesTarget (it : CartItem) (id : ProductId) (options : Option ItemOptions) : Bool :=
  it.id.toStr == id.toStr &&
    (match options with
     | none => true
     | some o => some it.sku == o.sku && it.color == o.color && it.size == o.size)

/-- `setQty` (src/data/cart.ts): clamp the new quantity to at least 1 on
every matching line, then recalculate. -/
def setQty (state : CartState) (id : ProductId) (qty : ℚ)
    (options : Option ItemOptions) : CartState :=
  let items := state.cart.items.map (fun it =>
    if matchesTarget it id options then { it with qty := max 1 qty } else it)
  { cart := recalc items, loading := false }

/-- `removeFromCart` (src/data/cart.ts): drop every matching line, then
recalculate. -/
def removeFromCart (state : CartState) (id : ProductId)
    (options : Option ItemOptions) : CartState :=
  let items := state.cart.items.filter (fun it => !(matchesTarget it id options))
  { cart := recalc items, loading := false }

/-- `clearCart` (src/data/cart.ts). -/
def clearCart : CartState := { cart := recalc [], loading := false }

/-- The invariant recomputed by `recalc`: totals are the sums over the
lines, and every store operation returns with `loading = false`. -/
def cartInvariant (s : CartState) : Prop :=
  s.cart.totalQty = (s.cart.items.map (fun it => it.qty)).sum ∧
  s.cart.totalPrice = (s.cart.items.map (fun it => it.price * it.qty)).sum ∧
  s.loading = false

lemma recalc_totalQty (items : List CartItem) :
    (recalc items).totalQty = (items.map (fun it => it.qty)).sum := by
  show List.foldl _ 0 items = _
  rw [List.sum_eq_foldl, List.foldl_map]

lemma recalc_totalPrice (items : List CartItem) :
    (recalc items).totalPrice = (items.map (fun it => it.price * it.qty)).sum := by
  show List.foldl _ 0 items = _
  rw [List.sum_eq_foldl, List.foldl_map]

lemma cartInvariant_recalc (items : List CartItem) :
    cartInvariant { cart := recalc items, loading := false } :=
  ⟨recalc_totalQty items, recalc_totalPrice items, rfl⟩

/-- First-match decomposition of `addItem` when a line with the same key is
already present. -/
lemma addItem_merge (items : List CartItem) (item : CartItem)
    (h : ∃ it ∈ items, sameKey it item = true) :
    ∃ l1 it l2, items = l1 ++ it :: l2 ∧ (∀ x ∈ l1, sameKey x item = false) ∧
      sameKey it item = true ∧
      addItem items item = l1 ++ { it with qty := it.qty + item.qty } :: l2 := by
  induction items with
  | nil => simp at h
  | cons a rest ih =>
    by_cases ha : sameKey a item = true
    · exact ⟨[], a, rest, rfl, by simp, ha, by simp [addItem, ha]⟩
    · have h' : ∃ it ∈ rest, sameKey it item = true := by
        obtain ⟨it, hit, hkey⟩ := h
        rcases List.mem_cons.mp hit with rfl | hmem
        · exact absurd hkey ha
        · exact ⟨it, hmem, hkey⟩
      obtain ⟨l1, it, l2, heq, hnone, hkey, hadd⟩ := ih h'
      refine ⟨a :: l1, it, l2, by rw [heq]; rfl, ?_, hkey, ?_⟩
      · intro x hx
        rcases List.mem_cons.mp hx with rfl | hmem
        · exact Bool.eq_false_iff.mpr ha
        · exact hnone x hmem
      · show addItem (a :: rest) item = _
        unfold addItem
        rw [if_neg (by simp [ha]), hadd]
        rfl

/-- A concrete cart line used to instantiate the cart theorems. -/
def sampleItem : CartItem :=
  { id := .num 1, qty := 2, name := "Mug", price := 4, image := none,
    sku := "SKU1", color := some "red", size := none }

/-- C7: when the cart already holds a line with the same string-coerced id,
sku, color and size, `addToCart` bumps that (first such) line's qty by the
added qty and appends nothing; in particular adding the same key twice with
qty 2 and qty 3 onto an empty cart leaves a single line with qty 5. -/
theorem addToCart_merges_same_key (state : CartState) (item : CartItem)
    (h : ∃ it ∈ state.cart.items, sameKey it item = true) :
    ((addToCart state item).cart.items.length = state.cart.items.length ∧
      ∃ l1 it l2, state.cart.items = l1 ++ it :: l2 ∧
        (∀ x ∈ l1, sameKey x item = false) ∧ sameKey it item = true ∧
        (addToCart state item).cart.items
          = l1 ++ { it with qty := it.qty + item.qty } :: l2) ∧
    ∀ (idv : ProductId) (nm : String) (pr : ℚ) (im : Option String) (sk : String)
      (co sz : Option String),
      (addToCart (addToCart (safeGet StoredContent.missing)
            ⟨idv, 2, nm, pr, im, sk, co, sz⟩)
          ⟨idv, 3, nm, pr, im, sk, co, sz⟩).cart.items
        = [⟨idv, 5, nm, pr, im, sk, co, sz⟩] := by
  constructor
  · obtain ⟨l1, it, l2, heq, hnone, hkey, hadd⟩ := addItem_merge state.cart.items item h
    have hitems : (addToCart state item).cart.items = addItem state.cart.items item := rfl
    refine ⟨?_, l1, it, l2, heq, hnone, hkey, by rw [hitems, hadd]⟩
    rw [hitems, hadd, heq]
    simp
  · intro idv nm pr im sk co sz
    show addItem (addItem [] ⟨idv, 2, nm, pr, im, sk, co, sz⟩)
        ⟨idv, 3, nm, pr, im, sk, co, sz⟩ = _
    norm_num [addItem, sameKey]

/-- Witness for C7: the double add of `sampleItem` (qty 2 then qty 3). -/
theorem addToCart_merges_same_key_witness :
    (∃ it ∈ (addToCart (safeGet StoredContent.missing) sampleItem).cart.items,
        sameKey it { sampleItem with qty := 3 } = true) ∧
    (addToCart (addToCart (safeGet StoredContent.missing) sampleItem)
        { sampleItem with qty := 3 }).cart.items.length
      = (addToCart (safeGet StoredContent.missing) sampleItem).cart.items.length := by
  have hyp : ∃ it ∈ (addToCart (safeGet StoredContent.missing) sampleItem).cart.items,
      sameKey it { sampleItem with qty := 3 } = true := by
    refine ⟨{ sampleItem with qty := if (2 : ℚ) = 0 then 1 else 2 }, ?_, ?_⟩
    · show _ ∈ addItem [] sampleItem
      simp [addItem, sampleItem]
    · simp [sameKey, sampleItem]
  exact ⟨hyp, (addToCart_merges_same_key _ _ hyp).1.1⟩

/-- C8: on every storage outcome other than a parsed record with a `cart`
field — missing content, invalid JSON, or no `cart` field — `getCart`
returns (rather than throws) the empty cart with both totals 0. -/
theorem getCart_malformed_fallback (s : StoredContent)
    (h : ∀ c, s ≠ StoredContent.withCart c) :
    getCart s
      = { cart := { items := [], totalQty := 0, totalPrice := 0 }, loading := false } := by
  cases s with
  | missing => rfl
  | invalidJson => rfl
  | noCartField => rfl
  | withCart c => exact absurd rfl (h c)

/-- Witness for C8 at invalid JSON. -/
theorem getCart_malformed_fallback_witness :
    (∀ c, StoredContent.invalidJson ≠ StoredContent.withCart c) ∧
    getCart StoredContent.invalidJson
      = { cart := { items := [], totalQty := 0, totalPrice := 0 }, loading := false } :=
  ⟨fun c h => StoredContent.noConfusion h,
    getCart_malformed_fallback _ (fun c h => StoredContent.noConfusion h)⟩

/-- C10: every mutator (`addToCart`, `setQty`, `removeFromCart`,
`clearCart`) returns a state whose totals are the sums over its lines and
whose `loading` is false, while `getCart` does not re-establish the
invariant on a well-formed but inconsistent stored record. -/
theorem cart_mutators_maintain_invariant (state : CartState) (item : CartItem)
    (id : ProductId) (q : ℚ) (options : Option ItemOptions) :
    cartInvariant (addToCart state item) ∧ cartInvariant (setQty state id q options) ∧
    cartInvariant (removeFromCart state id options) ∧ cartInvariant clearCart ∧
    ∃ s : StoredContent, ¬ cartInvariant (getCart s) := by
  refine ⟨cartInvariant_recalc _, cartInvariant_recalc _, cartInvariant_recalc _,
    cartInvariant_recalc _,
    ⟨StoredContent.withCart { items := [], totalQty := 1, totalPrice := 0 }, ?_⟩⟩
  intro hinv
  obtain ⟨h1, -, -⟩ := hinv
  norm_num [getCart, safeGet] at h1

/-! ### RUT validation (QuoteModal in src/components/Header.tsx) -/

/-- `cleanRut`: strip dots and hyphens, uppercase the rest. -/
def cleanRut (rut : String) : String :=
  String.mk (((rut.data.filter (fun c => c != '.')).filter (fun c => c != '-')).map Char.toUpper)

/-- The loop of `calcDV`: the body is consumed right to left, `M` is the
loop counter and `S` the running checksum, updated as
`S = (S + digit * (9 - M % 6)) % 11`. -/
def calcDVAux : List Char → Nat → Nat → Nat
  | [], _, S => S
  | c :: rest, M, S => calcDVAux rest (M + 1) ((S + (c.toNat - 48) * (9 - M % 6)) % 11)

/-- `calcDV`: modulus-11 checksum of the digit body, rendered as the check
digit `"0"`–`"9"` (for `S ≠ 0`, as `String(S - 1)`) or `"K"` (for `S = 0`). -/
def calcDV (rutNumber : String) : String :=
  let S := calcDVAux rutNumber.data.reverse 0 1
  if S = 0 then "K" else toString (S - 1)

/-- The test of the regex `^\d{1,8}[0-9K]$` on the characters of the
normalized RUT: 1–8 digits followed by one digit or `K`. -/
def rutPattern (l : List Char) : Bool :=
  decide (2 ≤ l.length) && decide (l.length ≤ 9) && l.dropLast.all Char.isDigit &&
    (match l.getLast? with
     | some d => d.isDigit || d == 'K'
     | none => false)

/-- `validateRut`: normalize, test the shape, then compare the computed
check digit of the body (`slice(0,-1)`, i.e. all but the last character)
with the final character (`slice(-1)`). -/
def validateRut (rut : String) : Bool :=
  let l := (cleanRut rut).data
  if rutPattern l then
    calcDV (String.mk (l.take (l.length - 1))) == String.mk (l.drop (l.length - 1))
  else false

/-- `rutOk` in the QuoteModal component: an empty RUT field counts as ok. -/
def rutOk (rut : String) : Bool := if rut.isEmpty then true else validateRut rut

/-- The `disabled` condition of the print button: `!rutOk && !!rut`. -/
def printDisabled (rut : String) : Bool := !(rutOk rut) && !(rut.isEmpty)

/-- The shape test succeeds exactly on a body of 1–8 digits followed by a
digit or `K`. -/
lemma rutPattern_iff (l : List Char) :
    rutPattern l = true ↔
      ∃ body dv, l = body ++ [dv] ∧ 1 ≤ body.length ∧ body.length ≤ 8 ∧
        (∀ c ∈ body, c.isDigit = true) ∧ (dv.isDigit = true ∨ dv = 'K') := by
  unfold rutPattern
  constructor
  · intro h
    simp only [Bool.and_eq_true, decide_eq_true_eq, List.all_eq_true] at h
    obtain ⟨⟨⟨h2, h9⟩, hdigits⟩, hlast⟩ := h
    have hne : l ≠ [] := by
      intro hnil
      rw [hnil] at h2
      simp at h2
    refine ⟨l.dropLast, l.getLast hne, (List.dropLast_append_getLast hne).symm,
      ?_, ?_, hdigits, ?_⟩
    · rw [List.length_dropLast]; omega
    · rw [List.length_dropLast]; omega
    · rw [List.getLast?_eq_getLast l hne] at hlast
      simp only [Bool.or_eq_true, beq_iff_eq] at hlast
      exact hlast
  · rintro ⟨body, dv, rfl, h1, h8, hdigits, hdv⟩
    simp only [Bool.and_eq_true, decide_eq_true_eq, List.all_eq_true]
    refine ⟨⟨⟨?_, ?_⟩, ?_⟩, ?_⟩
    · simp only [List.length_append, List.length_singleton]; omega
    · simp only [List.length_append, List.length_singleton]; omega
    · rw [List.dropLast_concat]; exact hdigits
    · rw [List.getLast?_concat]
      simp only [Bool.or_eq_true, beq_iff_eq]
      exact hdv

/-- C9: `validateRut` is a pure predicate, true exactly when the normalized
input is 1–8 digits followed by a digit or `K` whose final character is the
modulus-11 check digit of the body; a non-empty invalid RUT makes the print
button disabled. -/
theorem validateRut_correct (r : String) :
    (validateRut r = true ↔
      ∃ body dv, (cleanRut r).data = body ++ [dv] ∧
        1 ≤ body.length ∧ body.length ≤ 8 ∧ (∀ c ∈ body, c.isDigit = true) ∧
        (dv.isDigit = true ∨ dv = 'K') ∧ calcDV (String.mk body) = String.mk [dv]) ∧
    (validateRut r = false → r.isEmpty = false → printDisabled r = true) := by
  constructor
  · show (if rutPattern (cleanRut r).data then
        calcDV (String.mk ((cleanRut r).data.take ((cleanRut r).data.length - 1)))
          == String.mk ((cleanRut r).data.drop ((cleanRut r).data.length - 1))
      else false) = true ↔ _
    cases hp : rutPattern (cleanRut r).data with
    | false =>
      simp only [Bool.false_eq_true, if_false]
      constructor
      · intro hF
        exact absurd hF (by simp)
      · rintro ⟨body, dv, hdec, h1, h8, hdig, hdv, -⟩
        have htrue : rutPattern (cleanRut r).data = true :=
          (rutPattern_iff _).mpr ⟨body, dv, hdec, h1, h8, hdig, hdv⟩
        rw [hp] at htrue
        exact absurd htrue (by simp)
    | true =>
      simp only [if_true]
      obtain ⟨body₀, dv₀, hdec, h1, h8, hdig, hdv⟩ := (rutPattern_iff _).mp hp
      have hlen : (body₀ ++ [dv₀]).length - 1 = body₀.length := by
        simp only [List.length_append, List.length_singleton]
        omega
      rw [hdec, hlen, List.take_left, List.drop_left]
      constructor
      · intro h
        exact ⟨body₀, dv₀, rfl, h1, h8, hdig, hdv, beq_iff_eq.mp h⟩
      · rintro ⟨body, dv, hdec2, -, -, -, -, hcalc⟩
        obtain ⟨hb, hs⟩ := List.append_inj' hdec2.symm rfl
        have hd : dv = dv₀ := by
          injection hs
        rw [hb, hd] at hcalc
        exact beq_iff_eq.mpr hcalc
  · intro hval hne
    simp [printDisabled, rutOk, hne, hval]

end Storefront
